import Mathlib

/-!
Verification development for the download-queue and progress-monitoring
engine of the `lakach` terminal tool (src/main.rs).

The Rust source is shallowly embedded: strings are Lean `String`s
(operated on through their `List Char` data, restricted to the ASCII
behaviour the tool actually sees), Rust `u16`/`u64` values are `Nat`
with explicit bounds where overflow matters, the shared `Vec<Download>`
queue is a `List Download`, and the background drain loop of
`App::process_download_queue` is modelled both as a fuel-indexed
function (`drainLoop`, for per-activation properties) and as a
small-step transition relation (`Step`/`Steps`, for interleavings of
enqueues, destination changes and the worker threads the code spawns).
-/

namespace Lakach

/-- Status of a download job, mirroring `enum DownloadStatus` in
src/main.rs (the spec calls `Downloading` "Running"). -/
inductive DownloadStatus where
  | Queued
  | Downloading
  | Completed
  | Failed (reason : String)
  deriving DecidableEq, Repr

/-- One download job, mirroring `struct Download` in src/main.rs.
Timestamps are `u64` Unix seconds, modelled as `Nat`. -/
structure Download where
  id : Nat
  folder_name : String
  remote_path : String
  status : DownloadStatus
  started_at : Option Nat
  completed_at : Option Nat
  deriving DecidableEq, Repr

/-- Mirrors `struct HistoryEntry` in src/main.rs. -/
structure HistoryEntry where
  folder_name : String
  remote_path : String
  downloaded_at : Nat
  deriving DecidableEq, Repr

/-- Mirrors `struct DownloadProgress` in src/main.rs; `percentage`
is a `u16` there, modelled as `Nat`. -/
structure DownloadProgress where
  file_name : String
  percentage : Nat
  speed : String
  deriving DecidableEq, Repr

/-! ## Character/string helpers used by the parser embedding

These model the Rust `str` operations used in `parse_rsync_line`,
restricted to ASCII whitespace (the rsync output the tool parses is
ASCII; Rust's `char::is_whitespace` agrees with this set there). -/

/-- ASCII whitespace, modelling `char::is_whitespace` on the ASCII
range. -/
def isWS (c : Char) : Bool :=
  c = ' ' || c = '\t' || c = '\n' || c = '\r' || c = '\x0b' || c = '\x0c'

/-- Model of `str::trim`: drop whitespace from both ends. -/
def rTrim (t : List Char) : List Char :=
  ((t.dropWhile isWS).reverse.dropWhile isWS).reverse

/-- Model of `str::contains(&str)` (substring containment). -/
def containsSub : List Char → List Char → Bool
  | [], pat => pat.isEmpty
  | c :: rest, pat => pat.isPrefixOf (c :: rest) || containsSub rest pat

/-- Model of `str::starts_with(&str)`. -/
def startsWithChars (t pat : List Char) : Bool :=
  pat.isPrefixOf t

/-- Model of `str::split_whitespace`: maximal runs of non-whitespace
characters, in order, with no empty tokens.  `acc` holds the current
token reversed. -/
def splitWSAux : List Char → List Char → List (List Char)
  | [], acc => if acc.isEmpty then [] else [acc.reverse]
  | c :: cs, acc =>
    if isWS c then
      if acc.isEmpty then splitWSAux cs [] else acc.reverse :: splitWSAux cs []
    else
      splitWSAux cs (c :: acc)

/-- Tokens of a line, as in `trimmed.split_whitespace()`. -/
def splitWS (t : List Char) : List (List Char) :=
  splitWSAux t []

/-- Model of `str::ends_with('%')` on a token. -/
def endsWithPct (t : List Char) : Bool :=
  t.getLast? = some '%'

/-- Model of `str::trim_end_matches('%')`: remove every trailing `%`. -/
def trimEndPct (t : List Char) : List Char :=
  (t.reverse.dropWhile (fun c => c = '%')).reverse

/-- Model of `str::parse::<u16>()`: an optional leading `+`, then at
least one ASCII digit, and the value must fit in a `u16`. -/
def parseU16 (t : List Char) : Option Nat :=
  let digits := match t with
    | '+' :: rest => rest
    | _ => t
  if digits.isEmpty then none
  else if digits.all (fun c => c.isDigit) then
    let v := digits.foldl (fun a c => a * 10 + (c.toNat - 48)) 0
    if v ≤ 65535 then some v else none
  else none

/-- The pattern `"/s"` looked for in speed tokens. -/
def slashS : List Char := ['/', 's']

/-- The first classification test of `parse_rsync_line`: the trimmed
line contains both a `%` and the substring `"/s"`. -/
def progressCond (t : List Char) : Bool :=
  t.contains '%' && containsSub t slashS

/-- The second classification test of `parse_rsync_line` (the
`else if` chain deciding that a line is a file-name line). -/
def filenameCond (t : List Char) : Bool :=
  !t.isEmpty
  && !(match t with | [] => false | c :: _ => isWS c)
  && !startsWithChars t "receiving".data
  && !startsWithChars t "sending".data
  && !startsWithChars t "sent".data
  && !startsWithChars t "total".data
  && !startsWithChars t "building".data
  && !containsSub t "speedup".data
  && !containsSub t "bytes/sec".data
  && decide (t.length < 200)
  && !containsSub t "to-check".data
  && !containsSub t "to-chk".data

/-- Model of `std::path::Path::file_name` for Unix-style paths, as used
on a file-name line: the last component that is neither empty nor `.`,
unless it is `..` (then there is no file name). -/
def splitSlashAux : List Char → List Char → List (List Char)
  | [], acc => [acc.reverse]
  | c :: cs, acc =>
    if c = '/' then acc.reverse :: splitSlashAux cs [] else splitSlashAux cs (c :: acc)

/-- Final path segment, see `splitSlashAux`. -/
def rustFileName (t : List Char) : Option (List Char) :=
  let comps := (splitSlashAux t []).filter fun c => !c.isEmpty && !(c == ['.'])
  match comps.getLast? with
  | none => none
  | some c => if c == ['.', '.'] then none else some c

/-- One iteration of the token-scanning loop of the progress branch of
`parse_rsync_line` (lines 643-653), on the running
(percentage, speed) accumulator: a token containing `"/s"` overwrites
the speed; a token ending in `%` whose digits parse as a u16 overwrites
the percentage (clamped to 100), while a failing parse keeps the
earlier value. -/
def scanStep (acc : Nat × List Char) (part : List Char) : Nat × List Char :=
  let speed := if containsSub part slashS then part else acc.2
  let percentage :=
    if endsWithPct part then
      match parseU16 (trimEndPct part) with
      | some v => min v 100
      | none => acc.1
    else acc.1
  (percentage, speed)

/-- The token-scanning loop of the progress branch of
`parse_rsync_line`: fold `scanStep` over the tokens starting from
percentage 0 and empty speed. -/
def scanParts (parts : List (List Char)) : Nat × List Char :=
  parts.foldl scanStep (0, [])

/-- The label shown for the in-flight file, from the progress branch of
`parse_rsync_line`: the current file cursor, or the sentinel
`"Syncing..."` when no file-name line has been seen yet. -/
def displayName (current_file : String) : String :=
  if current_file = "" then "Syncing..." else current_file

/-- Embedding of `parse_rsync_line` (src/main.rs lines 632-694).  The
`&mut String` cursor is threaded explicitly: the result is the optional
emitted snapshot together with the new cursor value. -/
def parse_rsync_line (line : String) (current_file : String) :
    Option DownloadProgress × String :=
  let trimmed := rTrim line.data
  if progressCond trimmed then
    let ps := scanParts (splitWS trimmed)
    if ps.2.isEmpty then (none, current_file)
    else
      (some { file_name := displayName current_file
              percentage := ps.1
              speed := String.mk ps.2 },
       current_file)
  else if filenameCond trimmed then
    match rustFileName trimmed with
    | some n => (none, String.mk n)
    | none => (none, current_file)
  else (none, current_file)

/-! ## Job queue operations (src/main.rs: `App::queue_download`,
`App::process_download_queue`, `App::move_completed_to_history`) -/

/-- The enqueue step of `App::queue_download` (lines 448-458): push a
new `Queued` job with the current `next_download_id` onto the back of
the queue. -/
def enqueueJob (q : List Download) (nid : Nat) (name remote : String) :
    List Download :=
  q ++ [{ id := nid
          folder_name := name
          remote_path := remote
          status := DownloadStatus.Queued
          started_at := none
          completed_at := none }]

/-- The in-place update applied to the first `Queued` job found by the
drain loop (lines 478-487): status to `Downloading`, `started_at` to
the current time. -/
def markDownloading (t : Nat) (d : Download) : Download :=
  { d with status := DownloadStatus.Downloading, started_at := some t }

/-- The "find next queued download" critical section of
`App::process_download_queue` (lines 473-491): walk the queue in order,
mark the first `Queued` job as `Downloading` with start time `t`, and
return its clone together with the updated queue (`none` and the
unchanged queue if no job is `Queued`). -/
def markFirstQueued (t : Nat) : List Download → Option Download × List Download
  | [] => (none, [])
  | d :: rest =>
    if d.status = DownloadStatus.Queued then
      (some (markDownloading t d), markDownloading t d :: rest)
    else
      let r := markFirstQueued t rest
      (r.1, d :: r.2)

/-- The terminal update of one drain-loop iteration (lines 551-567):
`Completed` with `completed_at` on success, `Failed "rsync failed"`
with `completed_at` on failure. -/
def finishJob (t : Nat) (ok : Bool) (d : Download) : Download :=
  if ok then { d with status := DownloadStatus.Completed, completed_at := some t }
  else { d with status := DownloadStatus.Failed "rsync failed", completed_at := some t }

/-- The "update status" critical section of
`App::process_download_queue` (lines 549-568): find the first job with
the given id and update it in place; a queue without that id is
returned unchanged (the `if let Some` makes the lookup a total no-op
on a missing id — the embedding is a total function, matching the
absence of any panicking operation on this path). -/
def updateStatusById (t : Nat) (jid : Nat) (ok : Bool) : List Download → List Download
  | [] => []
  | d :: rest =>
    if d.id = jid then finishJob t ok d :: rest
    else d :: updateStatusById t jid ok rest

/-- Number of `Queued` jobs, the measure the drain loop consumes. -/
def countQueued (q : List Download) : Nat :=
  (q.filter fun d => decide (d.status = DownloadStatus.Queued)).length

/-- Outcome of one external rsync process: the spawn itself can fail
(`Command::spawn` returning `Err`), or the process exits and
`status.success()` is a boolean.  Indexed per job id by an oracle. -/
inductive ProcOutcome where
  | spawnFail
  | exited (ok : Bool)
  deriving DecidableEq, Repr

/-- The `success` boolean computed in lines 504-543: `false` on spawn
failure, otherwise the exit status. -/
def isSuccess : ProcOutcome → Bool
  | ProcOutcome.spawnFail => false
  | ProcOutcome.exited ok => ok

/-- Result of running one activation of the drain loop to completion:
final queue, the log of spawned rsync invocations as
(remote_path, destination) pairs, and the final clock. -/
structure DrainResult where
  queue : List Download
  spawns : List (String × String)
  clock : Nat
  deriving DecidableEq, Repr

/-- Embedding of the drain loop body of `App::process_download_queue`
(lines 471-574) as a fuel-indexed function.  `local_dest` is the value
of `self.local_dest` cloned once when the thread is spawned (line 468);
every rsync invocation of this activation uses it.  `outcome` gives
each job's process outcome by job id; the clock advances at each
timestamp read.  Fuel only bounds the number of iterations; with fuel
at least `countQueued q` the loop reaches its exit branch exactly as
the Rust loop does. -/
def drainLoop (outcome : Nat → ProcOutcome) (local_dest : String) :
    Nat → Nat → List Download → List (String × String) → DrainResult
  | 0, clk, q, log => { queue := q, spawns := log, clock := clk }
  | fuel+1, clk, q, log =>
    match markFirstQueued clk q with
    | (none, q') => { queue := q', spawns := log, clock := clk }
    | (some d, q') =>
      drainLoop outcome local_dest fuel (clk + 2)
        (updateStatusById (clk + 1) d.id (isSuccess (outcome d.id)) q')
        (log ++ [(d.remote_path, local_dest)])

/-- A job is `Completed` and carries its end timestamp: the guard of
the promotion loop in `App::move_completed_to_history`
(lines 582-583). -/
def promotable (d : Download) : Bool :=
  decide (d.status = DownloadStatus.Completed) && d.completed_at.isSome

/-- Conversion of a promoted job into a history record
(lines 584-588); `completed_at` is guaranteed by `promotable`. -/
def toHistoryEntry (d : Download) : HistoryEntry :=
  { folder_name := d.folder_name
    remote_path := d.remote_path
    downloaded_at := d.completed_at.getD 0 }

/-- The scanning loop of `App::move_completed_to_history`
(lines 581-592), started at index `i`: indices of promotable jobs (in
order) and their history entries (in order). -/
def sweepCompleted (i : Nat) : List Download → List Nat × List HistoryEntry
  | [] => ([], [])
  | d :: rest =>
    let r := sweepCompleted (i + 1) rest
    if promotable d then (i :: r.1, toHistoryEntry d :: r.2) else r

/-- Embedding of `App::move_completed_to_history` (lines 577-598):
collect promotable jobs with their indices, append their history
entries, then remove the collected indices from the queue in reverse
(descending) order. -/
def move_completed_to_history (q : List Download) (hist : List HistoryEntry) :
    List Download × List HistoryEntry :=
  let r := sweepCompleted 0 q
  (r.1.foldr (fun i acc => acc.eraseIdx i) q, hist ++ r.2)

/-! ## Whole-system small-step model

`App::queue_download` spawns a fresh drain-loop thread on every
enqueue (line 462 calls `process_download_queue` unconditionally), and
each such thread captures the then-current `local_dest` (line 468).
The interleavings of these threads with the UI thread (enqueues and
destination edits) are modelled by a transition relation. -/

/-- One live drain-loop thread: the `local_dest` it cloned when it was
spawned, and the job it currently holds (`none` when it is at the top
of its loop, about to look for the next `Queued` job). -/
structure WorkerSt where
  dest : String
  inFlight : Option Download
  deriving DecidableEq, Repr

/-- One rsync invocation as recorded for analysis: the remote path,
the destination the worker passed to rsync, and the value of
`App.local_dest` at the instant of the spawn. -/
structure SpawnRec where
  remote : String
  usedDest : String
  destAtSpawn : String
  deriving DecidableEq, Repr

/-- Whole-system state: the shared download queue, the live drain-loop
threads, the UI-owned `local_dest` and `next_download_id`, a clock for
timestamps, and the log of rsync spawns. -/
structure Sys where
  queue : List Download
  workers : List WorkerSt
  local_dest : String
  next_id : Nat
  clock : Nat
  spawnLog : List SpawnRec
  deriving DecidableEq, Repr

/-- The state at startup: no downloads, no worker threads. -/
def sysInit (dest : String) : Sys :=
  { queue := [], workers := [], local_dest := dest
    next_id := 1, clock := 0, spawnLog := [] }

/-- Interleaved small steps of the system, faithful to the source:

* `enqueue` — `App::queue_download`: push a `Queued` job and
  unconditionally spawn a new drain-loop thread that captures the
  current `local_dest` (lines 448-462, 466-471; there is no
  "worker already running" check in the code);
* `setDest` — `App::confirm_path_change` (lines 272-279);
* `pickSpawn` — an idle worker marks the first `Queued` job
  `Downloading` and spawns rsync with its captured destination
  (lines 473-502);
* `pickNone` — an idle worker finds no `Queued` job and its thread
  exits (lines 569-572);
* `finish` — a worker's rsync process ends (exit status `ok`) and the
  worker writes the terminal status back by id (lines 539-568). -/
inductive Step : Sys → Sys → Prop where
  | enqueue (s : Sys) (name remote : String) :
      Step s { s with
        queue := enqueueJob s.queue s.next_id name remote
        next_id := s.next_id + 1
        workers := s.workers ++ [{ dest := s.local_dest, inFlight := none }] }
  | setDest (s : Sys) (d : String) (h : d ≠ "") :
      Step s { s with local_dest := d }
  | pickSpawn (s : Sys) (i : Nat) (w : WorkerSt) (d : Download) (q' : List Download)
      (hw : s.workers.get? i = some w) (hidle : w.inFlight = none)
      (hq : markFirstQueued s.clock s.queue = (some d, q')) :
      Step s { s with
        queue := q'
        clock := s.clock + 1
        workers := s.workers.set i { dest := w.dest, inFlight := some d }
        spawnLog := s.spawnLog ++
          [{ remote := d.remote_path, usedDest := w.dest, destAtSpawn := s.local_dest }] }
  | pickNone (s : Sys) (i : Nat) (w : WorkerSt)
      (hw : s.workers.get? i = some w) (hidle : w.inFlight = none)
      (hq : (markFirstQueued s.clock s.queue).1 = none) :
      Step s { s with workers := s.workers.eraseIdx i }
  | finish (s : Sys) (i : Nat) (w : WorkerSt) (d : Download) (ok : Bool)
      (hw : s.workers.get? i = some w) (hbusy : w.inFlight = some d) :
      Step s { s with
        queue := updateStatusById s.clock d.id ok s.queue
        clock := s.clock + 1
        workers := s.workers.set i { dest := w.dest, inFlight := none } }

/-- Reachability: reflexive-transitive closure of `Step`. -/
inductive Steps : Sys → Sys → Prop where
  | refl (s : Sys) : Steps s s
  | tail {s t u : Sys} : Steps s t → Step t u → Steps s u

/-- The well-formedness invariant of the queue (claim C9): a
`Downloading` job carries its start timestamp, and a terminal
(`Completed` or `Failed`) job carries its end timestamp. -/
def isTerminal : DownloadStatus → Bool
  | DownloadStatus.Completed => true
  | DownloadStatus.Failed _ => true
  | _ => false

/-- Queue well-formedness, see `isTerminal` (an `abbrev` so that
decidability is found by unfolding on concrete queues). -/
abbrev WF (q : List Download) : Prop :=
  ∀ d ∈ q, (d.status = DownloadStatus.Downloading → d.started_at.isSome = true) ∧
    (isTerminal d.status = true → d.completed_at.isSome = true)

/-! ## Concrete instances used to witness the theorems on sample data -/

/-- A freshly enqueued job, as `App::queue_download` builds it. -/
def jQ (nid : Nat) (name remote : String) : Download :=
  { id := nid
    folder_name := name
    remote_path := remote
    status := DownloadStatus.Queued
    started_at := none
    completed_at := none }

/-- Sample two-job queue. -/
def qAB : List Download := [jQ 1 "a" "h:a", jQ 2 "b" "h:b"]

/-- Sample outcome oracle: job 1's rsync fails to spawn, every other
job's process exits successfully. -/
def outSpawnFail1 : Nat → ProcOutcome :=
  fun jid => if jid = 1 then ProcOutcome.spawnFail else ProcOutcome.exited true

/-- Sample outcome oracle: job 1's rsync exits non-zero, every other
job's process exits successfully. -/
def outExitFail1 : Nat → ProcOutcome :=
  fun jid => if jid = 1 then ProcOutcome.exited false else ProcOutcome.exited true

/-- Sample mixed-status queue for the promoter and invariant theorems:
one `Completed` job between a `Failed` and a `Queued` one, plus a
`Downloading` job. -/
def qMixed : List Download :=
  [{ id := 1, folder_name := "a", remote_path := "h:a"
     status := DownloadStatus.Failed "rsync failed"
     started_at := some 1, completed_at := some 2 },
   { id := 2, folder_name := "b", remote_path := "h:b"
     status := DownloadStatus.Completed
     started_at := some 3, completed_at := some 4 },
   { id := 3, folder_name := "c", remote_path := "h:c"
     status := DownloadStatus.Downloading
     started_at := some 5, completed_at := none },
   jQ 4 "d" "h:d"]

/-! ## Lemmas about the queue critical sections -/

theorem markFirstQueued_snd_of_none (t : Nat) (q : List Download)
    (h : (markFirstQueued t q).1 = none) :
    (markFirstQueued t q).2 = q ∧ ∀ d ∈ q, ¬(d.status = DownloadStatus.Queued) := by
  induction q with
  | nil => exact ⟨rfl, by simp⟩
  | cons d rest ih =>
    by_cases hd : d.status = DownloadStatus.Queued
    · simp [markFirstQueued, hd] at h
    · simp only [markFirstQueued, hd, if_false] at h ⊢
      obtain ⟨h1, h2⟩ := ih h
      refine ⟨by simp [h1], ?_⟩
      intro x hx
      rcases List.mem_cons.mp hx with rfl | hx
      · exact hd
      · exact h2 x hx

theorem markFirstQueued_fst_some (t : Nat) (q : List Download) (d : Download)
    (h : (markFirstQueued t q).1 = some d) :
    ∃ x ∈ q, x.status = DownloadStatus.Queued ∧ d = markDownloading t x := by
  induction q with
  | nil => simp [markFirstQueued] at h
  | cons a rest ih =>
    by_cases ha : a.status = DownloadStatus.Queued
    · simp only [markFirstQueued, ha, if_true, Option.some.injEq] at h
      exact ⟨a, List.mem_cons_self a rest, ha, h.symm⟩
    · simp only [markFirstQueued, ha, if_false] at h
      obtain ⟨x, hx, hxs, hxd⟩ := ih h
      exact ⟨x, List.mem_cons_of_mem a hx, hxs, hxd⟩

theorem markFirstQueued_some_mem (t : Nat) (q : List Download) (d : Download)
    (h : (markFirstQueued t q).1 = some d) : d ∈ (markFirstQueued t q).2 := by
  induction q with
  | nil => simp [markFirstQueued] at h
  | cons a rest ih =>
    by_cases ha : a.status = DownloadStatus.Queued
    · simp only [markFirstQueued, ha, if_true, Option.some.injEq] at h ⊢
      simp [h]
    · simp only [markFirstQueued, ha, if_false] at h ⊢
      exact List.mem_cons_of_mem a (ih h)

theorem markFirstQueued_map_id (t : Nat) (q : List Download) :
    ((markFirstQueued t q).2).map (fun d => d.id) = q.map (fun d => d.id) := by
  induction q with
  | nil => rfl
  | cons a rest ih =>
    by_cases ha : a.status = DownloadStatus.Queued <;>
      simp [markFirstQueued, ha, markDownloading, ih]

theorem markFirstQueued_mem_not_queued (t : Nat) (q : List Download) (j : Download)
    (hj : j ∈ q) (hs : ¬(j.status = DownloadStatus.Queued)) :
    j ∈ (markFirstQueued t q).2 := by
  induction q with
  | nil => cases hj
  | cons a rest ih =>
    by_cases ha : a.status = DownloadStatus.Queued
    · simp only [markFirstQueued, ha, if_true]
      rcases List.mem_cons.mp hj with rfl | hj
      · exact absurd ha hs
      · exact List.mem_cons_of_mem _ hj
    · simp only [markFirstQueued, ha, if_false]
      rcases List.mem_cons.mp hj with rfl | hj
      · exact List.mem_cons_self _ _
      · exact List.mem_cons_of_mem _ (ih hj)

theorem markFirstQueued_mem_ne_id (t : Nat) (q : List Download) (d j : Download)
    (h : (markFirstQueued t q).1 = some d) (hj : j ∈ q) (hne : ¬(j.id = d.id)) :
    j ∈ (markFirstQueued t q).2 := by
  induction q with
  | nil => cases hj
  | cons a rest ih =>
    by_cases ha : a.status = DownloadStatus.Queued
    · simp only [markFirstQueued, ha, if_true, Option.some.injEq] at h ⊢
      rcases List.mem_cons.mp hj with rfl | hj
      · exact absurd (by rw [← h]; rfl) hne
      · exact List.mem_cons_of_mem _ hj
    · simp only [markFirstQueued, ha, if_false] at h ⊢
      rcases List.mem_cons.mp hj with rfl | hj
      · exact List.mem_cons_self _ _
      · exact List.mem_cons_of_mem _ (ih h hj)

theorem markFirstQueued_count_some (t : Nat) (q : List Download) (d : Download)
    (h : (markFirstQueued t q).1 = some d) :
    countQueued ((markFirstQueued t q).2) + 1 = countQueued q := by
  induction q with
  | nil => simp [markFirstQueued] at h
  | cons a rest ih =>
    by_cases ha : a.status = DownloadStatus.Queued
    · simp [markFirstQueued, ha, countQueued, markDownloading, List.filter_cons]
    · simp only [markFirstQueued, ha, if_false] at h ⊢
      have := ih h
      simp only [countQueued, List.filter_cons] at this ⊢
      by_cases hq : decide (a.status = DownloadStatus.Queued) = true
      · exact absurd (of_decide_eq_true hq) ha
      · simp only [Bool.not_eq_true] at hq
        simp [hq, this]

theorem updateStatusById_map_id (t jid : Nat) (ok : Bool) (q : List Download) :
    (updateStatusById t jid ok q).map (fun d => d.id) = q.map (fun d => d.id) := by
  induction q with
  | nil => rfl
  | cons a rest ih =>
    by_cases ha : a.id = jid <;>
      cases ok <;> simp [updateStatusById, ha, finishJob, ih]

theorem updateStatusById_mem_ne (t jid : Nat) (ok : Bool) (q : List Download)
    (j : Download) (hj : j ∈ q) (hne : ¬(j.id = jid)) :
    j ∈ updateStatusById t jid ok q := by
  induction q with
  | nil => cases hj
  | cons a rest ih =>
    by_cases ha : a.id = jid
    · simp only [updateStatusById, ha, if_true]
      rcases List.mem_cons.mp hj with rfl | hj
      · exact absurd ha hne
      · exact List.mem_cons_of_mem _ hj
    · simp only [updateStatusById, ha, if_false]
      rcases List.mem_cons.mp hj with rfl | hj
      · exact List.mem_cons_self _ _
      · exact List.mem_cons_of_mem _ (ih hj)

theorem updateStatusById_mem_eq (t jid : Nat) (ok : Bool) (q : List Download)
    (j : Download) (hnd : (q.map (fun d => d.id)).Nodup) (hj : j ∈ q)
    (hid : j.id = jid) : finishJob t ok j ∈ updateStatusById t jid ok q := by
  induction q with
  | nil => cases hj
  | cons a rest ih =>
    rw [List.map_cons, List.nodup_cons] at hnd
    by_cases ha : a.id = jid
    · have hja : j = a := by
        rcases List.mem_cons.mp hj with rfl | hjr
        · rfl
        · exfalso
          have hmap : j.id ∈ List.map (fun d => d.id) rest :=
            List.mem_map_of_mem (fun d => d.id) hjr
          rw [hid, ← ha] at hmap
          exact hnd.1 hmap
      simp only [updateStatusById, ha, if_true]
      exact hja ▸ List.mem_cons_self _ _
    · have hj' : j ∈ rest := by
        rcases List.mem_cons.mp hj with rfl | hj
        · exact absurd hid ha
        · exact hj
      simp only [updateStatusById, ha, if_false]
      exact List.mem_cons_of_mem _ (ih hnd.2 hj')

theorem finishJob_not_queued (t : Nat) (ok : Bool) (d : Download) :
    ¬((finishJob t ok d).status = DownloadStatus.Queued) := by
  cases ok <;> simp [finishJob]

theorem countQueued_cons_not_queued (a : Download) (l : List Download)
    (h : ¬(a.status = DownloadStatus.Queued)) : countQueued (a :: l) = countQueued l := by
  simp [countQueued, List.filter_cons, h]

theorem countQueued_cons_queued (a : Download) (l : List Download)
    (h : a.status = DownloadStatus.Queued) : countQueued (a :: l) = countQueued l + 1 := by
  simp [countQueued, List.filter_cons, h]

theorem updateStatusById_count_le (t jid : Nat) (ok : Bool) (q : List Download) :
    countQueued (updateStatusById t jid ok q) ≤ countQueued q := by
  induction q with
  | nil => exact Nat.le_refl _
  | cons a rest ih =>
    by_cases ha : a.id = jid
    · simp only [updateStatusById, ha, if_true]
      rw [countQueued_cons_not_queued _ _ (finishJob_not_queued t ok a)]
      by_cases hq : a.status = DownloadStatus.Queued
      · rw [countQueued_cons_queued _ _ hq]
        exact Nat.le_succ_of_le (Nat.le_refl _)
      · rw [countQueued_cons_not_queued _ _ hq]
    · simp only [updateStatusById, ha, if_false]
      by_cases hq : a.status = DownloadStatus.Queued
      · rw [countQueued_cons_queued _ _ hq, countQueued_cons_queued _ _ hq]
        exact Nat.succ_le_succ ih
      · rw [countQueued_cons_not_queued _ _ hq, countQueued_cons_not_queued _ _ hq]
        exact ih

theorem countQueued_pos (q : List Download) (j : Download) (hj : j ∈ q)
    (hq : j.status = DownloadStatus.Queued) : 0 < countQueued q := by
  have hmem : j ∈ q.filter (fun d => decide (d.status = DownloadStatus.Queued)) :=
    List.mem_filter.mpr ⟨hj, by simp [hq]⟩
  exact List.length_pos.mpr (List.ne_nil_of_mem hmem)

theorem nodup_id_inj (q : List Download) (hnd : (q.map (fun d => d.id)).Nodup)
    (j k : Download) (hj : j ∈ q) (hk : k ∈ q) (he : j.id = k.id) : j = k :=
  List.inj_on_of_nodup_map hnd hj hk he

/-- C5: the worker's dequeue step (`markFirstQueued`, the first
critical section of the drain loop) selects exactly the first job in
insertion order whose status is `Queued` — it returns that job (marked
`Downloading` with its start time), or `none` when no job is `Queued`;
this is `List.find?` on the queue, i.e. FIFO scheduling with no
priority. -/
theorem dequeue_is_fifo (t : Nat) (q : List Download) :
    (markFirstQueued t q).1 =
      (q.find? (fun d => decide (d.status = DownloadStatus.Queued))).map
        (markDownloading t) := by
  induction q with
  | nil => rfl
  | cons a rest ih =>
    by_cases ha : a.status = DownloadStatus.Queued
    · rw [List.find?_cons_of_pos _ (by simp [ha])]
      simp [markFirstQueued, ha]
    · rw [List.find?_cons_of_neg _ (by simp [ha])]
      simp only [markFirstQueued, ha, if_false]
      exact ih

/-- C8: the worker's write-back of a terminal status looks the job up
by id and updates it in place; when the id is absent from the queue
the operation leaves the queue unchanged (and, being a total function
mirroring the panic-free `if let Some` lookup, it cannot crash). -/
theorem transition_unknown_id_noop (t jid : Nat) (ok : Bool) (q : List Download)
    (h : ∀ d ∈ q, ¬(d.id = jid)) : updateStatusById t jid ok q = q := by
  induction q with
  | nil => rfl
  | cons a rest ih =>
    have ha : ¬(a.id = jid) := h a (List.mem_cons_self a rest)
    simp only [updateStatusById, ha, if_false, List.cons.injEq, true_and]
    exact ih fun d hd => h d (List.mem_cons_of_mem a hd)

/-- Witness for C8 on a concrete queue and an id not in it. -/
theorem transition_unknown_id_noop_witness :
    updateStatusById 9 99 true qAB = qAB :=
  transition_unknown_id_noop 9 99 true qAB (by decide)

/-- C7: classification order and frame of `parse_rsync_line`.  Any
line whose trimmed form contains both a `%` and a `/s` token is
handled by the progress branch — even if it also has the shape of a
file-name line — and then the `currentFileName` cursor is never
changed; any other line (in particular every file-name-line match)
never emits a snapshot. -/
theorem parse_rule_order_and_frame (line current_file : String) :
    (progressCond (rTrim line.data) = true →
      (parse_rsync_line line current_file).2 = current_file) ∧
    (progressCond (rTrim line.data) = false →
      (parse_rsync_line line current_file).1 = none) := by
  constructor
  · intro h
    simp only [parse_rsync_line, h, if_true]
    split
    · rfl
    · rfl
  · intro h
    simp only [parse_rsync_line, h, Bool.false_eq_true, if_false]
    split
    · split
      · rfl
      · rfl
    · rfl

/-- Witness for C7: a line that is both filename-shaped and contains
`%` and `/s` leaves the cursor untouched (progress wins), and a pure
file-name line emits nothing. -/
theorem parse_rule_order_and_frame_witness :
    (parse_rsync_line "photo.jpg 45% 1.23MB/s" "old").2 = "old" ∧
    (parse_rsync_line "photo.jpg" "old").1 = none :=
  ⟨(parse_rule_order_and_frame "photo.jpg 45% 1.23MB/s" "old").1 (by decide),
   (parse_rule_order_and_frame "photo.jpg" "old").2 (by decide)⟩

/-- C2, counterexample to the claim as stated: on the progress line
`"101% 2MB/s"` the percentage token has NN = 101 > 100, and the
emitted percentage is 100 (the code clamps with `pct.min(100)`),
not 0 as the claim asserts. -/
theorem pct_above_100_clamped :
    (parse_rsync_line "101% 2MB/s" "").1 =
      some { file_name := "Syncing...", percentage := 100, speed := "2MB/s" } ∧
    ¬((parse_rsync_line "101% 2MB/s" "").1 =
      some { file_name := "Syncing...", percentage := 0, speed := "2MB/s" }) := by
  exact ⟨by decide, by decide⟩

theorem isPrefixOf_cons_cons (x y : Char) (xs ys : List Char) :
    (x :: xs).isPrefixOf (y :: ys) = (x == y && xs.isPrefixOf ys) := rfl

theorem isPrefixOf_stops_at_ws (c : Char) (bs : List Char) :
    ∀ (pat as : List Char), pat.all (fun x => !isWS x) = true → isWS c = true →
      pat.isPrefixOf (as ++ c :: bs) = true → pat.isPrefixOf as = true := by
  intro pat
  induction pat with
  | nil => intro as _ _ _; cases as <;> rfl
  | cons p0 pr ih =>
    intro as hall hc hpre
    have hp0ws : isWS p0 = false := by
      rw [List.all_cons, Bool.and_eq_true, Bool.not_eq_true'] at hall
      exact hall.1
    cases as with
    | nil =>
      rw [List.nil_append, isPrefixOf_cons_cons, Bool.and_eq_true] at hpre
      have hp0 : p0 = c := eq_of_beq hpre.1
      rw [hp0, hc] at hp0ws
      exact absurd hp0ws (by decide)
    | cons a as' =>
      rw [List.cons_append, isPrefixOf_cons_cons, Bool.and_eq_true] at hpre
      rw [isPrefixOf_cons_cons, Bool.and_eq_true]
      have hall' : pr.all (fun x => !isWS x) = true := by
        rw [List.all_cons, Bool.and_eq_true] at hall
        exact hall.2
      exact ⟨hpre.1, ih as' hall' hc hpre.2⟩

theorem containsSub_of_isPrefixOf (t pat : List Char)
    (h : pat.isPrefixOf t = true) (hne : ¬(pat = [])) :
    containsSub t pat = true := by
  cases t with
  | nil =>
    cases pat with
    | nil => exact absurd rfl hne
    | cons p pr => exact absurd h (by simp [List.isPrefixOf])
  | cons c cs => simp [containsSub, h]

theorem containsSub_split_at_ws (c : Char) (pat : List Char)
    (hpat : pat.all (fun x => !isWS x) = true) (hne : ¬(pat = []))
    (hc : isWS c = true) :
    ∀ (xs ys : List Char), containsSub (xs ++ c :: ys) pat = true →
      containsSub xs pat = true ∨ containsSub ys pat = true := by
  intro xs
  induction xs with
  | nil =>
    intro ys h
    rw [List.nil_append] at h
    simp only [containsSub, Bool.or_eq_true] at h
    rcases h with hfirst | hsecond
    · exfalso
      cases pat with
      | nil => exact hne rfl
      | cons p0 pr =>
        rw [isPrefixOf_cons_cons, Bool.and_eq_true] at hfirst
        have hp0 : p0 = c := eq_of_beq hfirst.1
        have hp0ws : isWS p0 = false := by
          rw [List.all_cons, Bool.and_eq_true, Bool.not_eq_true'] at hpat
          exact hpat.1
        rw [hp0, hc] at hp0ws
        exact absurd hp0ws (by decide)
    · exact Or.inr hsecond
  | cons x xs' ih =>
    intro ys h
    rw [List.cons_append] at h
    simp only [containsSub, Bool.or_eq_true] at h
    rcases h with hfirst | hsecond
    · have hx : pat.isPrefixOf (x :: xs') = true :=
        isPrefixOf_stops_at_ws c ys pat (x :: xs') hpat hc
          (by rw [List.cons_append]; exact hfirst)
      exact Or.inl (containsSub_of_isPrefixOf _ _ hx hne)
    · rcases ih ys hsecond with h | h
      · exact Or.inl (by simp [containsSub, h])
      · exact Or.inr h

theorem splitWSAux_covers (pat : List Char)
    (hpat : pat.all (fun x => !isWS x) = true) (hne : ¬(pat = [])) :
    ∀ (t acc : List Char), acc.all (fun x => !isWS x) = true →
      containsSub (acc.reverse ++ t) pat = true →
      ∃ tok ∈ splitWSAux t acc, containsSub tok pat = true := by
  intro t
  induction t with
  | nil =>
    intro acc _ h
    rw [List.append_nil] at h
    cases acc with
    | nil =>
      exfalso
      cases pat with
      | nil => exact hne rfl
      | cons p pr => exact absurd h (by simp [containsSub])
    | cons a as =>
      exact ⟨(a :: as).reverse, by simp [splitWSAux], h⟩
  | cons ch cs ih =>
    intro acc hacc h
    by_cases hw : isWS ch = true
    · rcases containsSub_split_at_ws ch pat hpat hne hw acc.reverse cs h with
        hleft | hright
      · have hane : ¬(acc = []) := by
          intro he
          rw [he] at hleft
          cases pat with
          | nil => exact hne rfl
          | cons p pr => exact absurd hleft (by simp [containsSub])
        have hai : acc.isEmpty = false := by
          cases acc with
          | nil => exact absurd rfl hane
          | cons a as => rfl
        refine ⟨acc.reverse, ?_, hleft⟩
        simp [splitWSAux, hw, hai]
      · obtain ⟨tok, htok, hcont⟩ := ih [] rfl (by simpa using hright)
        refine ⟨tok, ?_, hcont⟩
        simp only [splitWSAux, hw, if_true]
        split
        · exact htok
        · exact List.mem_cons_of_mem _ htok
    · have hw' : isWS ch = false := by rwa [Bool.not_eq_true] at hw
      have hacc' : (ch :: acc).all (fun x => !isWS x) = true := by
        rw [List.all_cons, Bool.and_eq_true]
        exact ⟨by rw [hw']; rfl, hacc⟩
      have h' : containsSub ((ch :: acc).reverse ++ cs) pat = true := by
        rw [List.reverse_cons, List.append_assoc]
        simpa using h
      have := ih (ch :: acc) hacc' h'
      simpa [splitWSAux, hw'] using this

theorem foldl_scan_fst_no_pct :
    ∀ (ts : List (List Char)) (acc : Nat × List Char),
      (∀ x ∈ ts, endsWithPct x = false) → (ts.foldl scanStep acc).1 = acc.1 := by
  intro ts
  induction ts with
  | nil => intro acc _; rfl
  | cons tok ts' ih =>
    intro acc hall
    rw [List.foldl_cons]
    have htok : endsWithPct tok = false := hall tok (List.mem_cons_self _ _)
    have hstep : (scanStep acc tok).1 = acc.1 := by simp [scanStep, htok]
    rw [ih (scanStep acc tok) (fun x hx => hall x (List.mem_cons_of_mem _ hx)), hstep]

theorem foldl_scan_snd_ne :
    ∀ (ts : List (List Char)) (acc : Nat × List Char),
      ((∃ tok ∈ ts, containsSub tok slashS = true) ∨ ¬(acc.2 = [])) →
      ¬((ts.foldl scanStep acc).2 = []) := by
  intro ts
  induction ts with
  | nil =>
    intro acc h
    rcases h with ⟨tok, htok, _⟩ | h
    · cases htok
    · exact h
  | cons tok ts' ih =>
    intro acc h
    rw [List.foldl_cons]
    by_cases hs : containsSub tok slashS = true
    · refine ih (scanStep acc tok) (Or.inr ?_)
      have hsnd : (scanStep acc tok).2 = tok := by simp [scanStep, hs]
      rw [hsnd]
      intro he
      rw [he] at hs
      exact absurd hs (by decide)
    · have hs' : containsSub tok slashS = false := by rwa [Bool.not_eq_true] at hs
      have hsnd : (scanStep acc tok).2 = acc.2 := by simp [scanStep, hs']
      rcases h with ⟨tok2, htok2, hc2⟩ | hne
      · rcases List.mem_cons.mp htok2 with rfl | htok2'
        · exact absurd hc2 hs
        · exact ih _ (Or.inl ⟨tok2, htok2', hc2⟩)
      · exact ih _ (Or.inr (by rw [hsnd]; exact hne))

/-- C2 (amended): for every progress line (a line passing the
`%`-and-`/s` classification) whose whitespace tokenization contains a
single percentage token `p` — at any position, among arbitrarily many
other tokens — a snapshot is emitted, and its percentage is exactly NN
when the digits of `p` parse as NN ≤ 100; it is 100 (clamped by
`pct.min(100)`) when they parse as NN > 100 (possible up to the u16
bound 65535); and it is 0 when they do not parse as a u16 (malformed
digits, or a value above 65535 overflowing the u16 parse). -/
theorem progress_percentage (line current_file : String)
    (pre : List (List Char)) (p : List Char) (post : List (List Char))
    (h1 : progressCond (rTrim line.data) = true)
    (hsplit : splitWS (rTrim line.data) = pre ++ p :: post)
    (hp : endsWithPct p = true)
    (hpre : ∀ x ∈ pre, endsWithPct x = false)
    (hpost : ∀ x ∈ post, endsWithPct x = false) :
    (∀ NN : Nat, parseU16 (trimEndPct p) = some NN → NN ≤ 100 →
      ∃ snap, (parse_rsync_line line current_file).1 = some snap ∧
        snap.percentage = NN) ∧
    (∀ NN : Nat, parseU16 (trimEndPct p) = some NN → 100 < NN →
      ∃ snap, (parse_rsync_line line current_file).1 = some snap ∧
        snap.percentage = 100) ∧
    (parseU16 (trimEndPct p) = none →
      ∃ snap, (parse_rsync_line line current_file).1 = some snap ∧
        snap.percentage = 0) := by
  have hss : containsSub (rTrim line.data) slashS = true := by
    have h1' : ((rTrim line.data).contains '%' &&
        containsSub (rTrim line.data) slashS) = true := h1
    rw [Bool.and_eq_true] at h1'
    exact h1'.2
  have hfst : (scanParts (splitWS (rTrim line.data))).1 =
      (match parseU16 (trimEndPct p) with | some v => min v 100 | none => 0) := by
    simp only [scanParts, hsplit, List.foldl_append, List.foldl_cons]
    rw [foldl_scan_fst_no_pct post _ hpost]
    have h0 : (pre.foldl scanStep ((0 : Nat), ([] : List Char))).1 = 0 :=
      foldl_scan_fst_no_pct pre _ hpre
    simp only [scanStep, hp, if_true]
    cases hpu : parseU16 (trimEndPct p) with
    | some v => rfl
    | none => exact h0
  have hspne : ¬((scanParts (splitWS (rTrim line.data))).2 = []) := by
    obtain ⟨tok, htok, hc⟩ := splitWSAux_covers slashS (by decide) (by decide)
      (rTrim line.data) [] rfl (by simpa using hss)
    simp only [scanParts]
    exact foldl_scan_snd_ne (splitWS (rTrim line.data)) (0, [])
      (Or.inl ⟨tok, htok, hc⟩)
  have hie : (scanParts (splitWS (rTrim line.data))).2.isEmpty = false := by
    rcases he : (scanParts (splitWS (rTrim line.data))).2 with _ | ⟨c, cs⟩
    · exact absurd he hspne
    · rfl
  have hemit : (parse_rsync_line line current_file).1 =
      some { file_name := displayName current_file
             percentage := (match parseU16 (trimEndPct p) with
               | some v => min v 100
               | none => 0)
             speed := String.mk (scanParts (splitWS (rTrim line.data))).2 } := by
    simp only [parse_rsync_line, h1, if_true, hie, Bool.false_eq_true, if_false, hfst]
  refine ⟨?_, ?_, ?_⟩
  · intro NN hNN hle
    refine ⟨_, hemit, ?_⟩
    show (match parseU16 (trimEndPct p) with
      | some v => min v 100 | none => 0) = NN
    rw [hNN]
    exact Nat.min_eq_left hle
  · intro NN hNN hgt
    refine ⟨_, hemit, ?_⟩
    show (match parseU16 (trimEndPct p) with
      | some v => min v 100 | none => 0) = 100
    rw [hNN]
    exact Nat.min_eq_right (Nat.le_of_lt hgt)
  · intro hNone
    refine ⟨_, hemit, ?_⟩
    show (match parseU16 (trimEndPct p) with
      | some v => min v 100 | none => 0) = 0
    rw [hNone]

/-- Witness for the amended C2 at the spec's own four-token example
line. -/
theorem progress_percentage_witness :
    ∃ snap,
      (parse_rsync_line "     1,234  45%  1.23MB/s  0:00:05" "photo.jpg").1 =
        some snap ∧ snap.percentage = 45 :=
  (progress_percentage "     1,234  45%  1.23MB/s  0:00:05" "photo.jpg"
      ["1,234".data] "45%".data ["1.23MB/s".data, "0:00:05".data]
      (by decide) (by decide) (by decide) (by decide) (by decide)).1
    45 (by decide) (by decide)

/-! ## The history promoter -/

theorem sweepCompleted_shift (q : List Download) :
    ∀ i : Nat, sweepCompleted (i + 1) q =
      ((sweepCompleted i q).1.map (fun n => n + 1), (sweepCompleted i q).2) := by
  induction q with
  | nil => intro i; rfl
  | cons d rest ih =>
    intro i
    by_cases h : promotable d = true
    · simp [sweepCompleted, h, ih (i + 1)]
    · simp only [Bool.not_eq_true] at h
      simp [sweepCompleted, h, ih (i + 1)]

theorem sweepCompleted_snd (q : List Download) :
    ∀ i : Nat, (sweepCompleted i q).2 = (q.filter promotable).map toHistoryEntry := by
  induction q with
  | nil => intro i; rfl
  | cons d rest ih =>
    intro i
    by_cases h : promotable d = true
    · simp [sweepCompleted, List.filter_cons, h, ih (i + 1)]
    · simp only [Bool.not_eq_true] at h
      simp [sweepCompleted, List.filter_cons, h, ih (i + 1)]

theorem foldr_eraseIdx_map_succ (l : List Nat) (a : Download) (q : List Download) :
    (l.map (fun n => n + 1)).foldr (fun i acc => acc.eraseIdx i) (a :: q) =
      a :: l.foldr (fun i acc => acc.eraseIdx i) q := by
  induction l with
  | nil => rfl
  | cons i l ih => simp [ih, List.eraseIdx_cons_succ]

theorem removeSweep_eq_filter (q : List Download) :
    (sweepCompleted 0 q).1.foldr (fun i acc => acc.eraseIdx i) q =
      q.filter (fun d => !(promotable d)) := by
  induction q with
  | nil => rfl
  | cons d rest ih =>
    by_cases h : promotable d = true
    · simp only [sweepCompleted, h, if_true, sweepCompleted_shift rest 0,
        List.filter_cons, Bool.not_true, Bool.false_eq_true, if_false]
      simp only [List.foldr_cons, foldr_eraseIdx_map_succ, List.eraseIdx_cons_zero]
      exact ih
    · simp only [Bool.not_eq_true] at h
      simp only [sweepCompleted, h, Bool.false_eq_true, if_false,
        sweepCompleted_shift rest 0, List.filter_cons, Bool.not_false, if_true]
      rw [foldr_eraseIdx_map_succ]
      simp [ih]

/-- C3: the history promoter (`App::move_completed_to_history`), on
any queue whose `Completed` jobs all carry their end timestamp (the
invariant the engine maintains, claim C9), removes exactly the
`Completed` jobs — leaving every `Queued`, `Downloading` and `Failed`
job in place, in order — and appends one `HistoryEntry` per removed
job, in the jobs' original relative order, built from each job's end
timestamp. -/
theorem promoter_removes_completed (q : List Download) (hist : List HistoryEntry)
    (h : ∀ d ∈ q, d.status = DownloadStatus.Completed → d.completed_at.isSome = true) :
    (move_completed_to_history q hist).1 =
      q.filter (fun d => !(decide (d.status = DownloadStatus.Completed))) ∧
    (move_completed_to_history q hist).2 =
      hist ++ (q.filter (fun d => decide (d.status = DownloadStatus.Completed))).map
        toHistoryEntry := by
  have hp : ∀ d ∈ q, promotable d = decide (d.status = DownloadStatus.Completed) := by
    intro d hd
    by_cases hc : d.status = DownloadStatus.Completed
    · simp [promotable, hc, h d hd hc]
    · simp [promotable, hc]
  constructor
  · show (sweepCompleted 0 q).1.foldr (fun i acc => acc.eraseIdx i) q = _
    rw [removeSweep_eq_filter]
    exact List.filter_congr fun d hd => by rw [hp d hd]
  · show hist ++ (sweepCompleted 0 q).2 = _
    rw [sweepCompleted_snd q 0]
    rw [List.filter_congr fun d hd => hp d hd]

/-- Witness for C3 on a queue holding a `Failed`, a `Completed`, a
`Downloading` and a `Queued` job. -/
theorem promoter_removes_completed_witness :
    (move_completed_to_history qMixed []).1 =
      qMixed.filter (fun d => !(decide (d.status = DownloadStatus.Completed))) ∧
    (move_completed_to_history qMixed []).2 =
      [] ++ (qMixed.filter (fun d => decide (d.status = DownloadStatus.Completed))).map
        toHistoryEntry :=
  promoter_removes_completed qMixed [] (by decide)

/-! ## The timestamp invariant -/

theorem markFirstQueued_mem_char (t : Nat) (q : List Download) :
    ∀ j ∈ (markFirstQueued t q).2, j ∈ q ∨ ∃ x ∈ q, j = markDownloading t x := by
  induction q with
  | nil => intro j hj; simp [markFirstQueued] at hj
  | cons a rest ih =>
    intro j hj
    by_cases ha : a.status = DownloadStatus.Queued
    · simp only [markFirstQueued, ha, if_true] at hj
      rcases List.mem_cons.mp hj with rfl | hj
      · exact Or.inr ⟨a, List.mem_cons_self a rest, rfl⟩
      · exact Or.inl (List.mem_cons_of_mem a hj)
    · simp only [markFirstQueued, ha, if_false] at hj
      rcases List.mem_cons.mp hj with rfl | hj
      · exact Or.inl (List.mem_cons_self _ _)
      · rcases ih j hj with h | ⟨x, hx, hxe⟩
        · exact Or.inl (List.mem_cons_of_mem a h)
        · exact Or.inr ⟨x, List.mem_cons_of_mem a hx, hxe⟩

theorem updateStatusById_mem_char (t jid : Nat) (ok : Bool) (q : List Download) :
    ∀ j ∈ updateStatusById t jid ok q, j ∈ q ∨ ∃ x ∈ q, j = finishJob t ok x := by
  induction q with
  | nil => intro j hj; simp [updateStatusById] at hj
  | cons a rest ih =>
    intro j hj
    by_cases ha : a.id = jid
    · simp only [updateStatusById, ha, if_true] at hj
      rcases List.mem_cons.mp hj with rfl | hj
      · exact Or.inr ⟨a, List.mem_cons_self a rest, rfl⟩
      · exact Or.inl (List.mem_cons_of_mem a hj)
    · simp only [updateStatusById, ha, if_false] at hj
      rcases List.mem_cons.mp hj with rfl | hj
      · exact Or.inl (List.mem_cons_self _ _)
      · rcases ih j hj with h | ⟨x, hx, hxe⟩
        · exact Or.inl (List.mem_cons_of_mem a h)
        · exact Or.inr ⟨x, List.mem_cons_of_mem a hx, hxe⟩

/-- C9: the timestamp invariant is preserved by every queue
operation — enqueue (new jobs are `Queued` with no timestamps),
dequeue-and-mark (`Downloading` jobs get `started_at`), terminal
write-back (`Completed`/`Failed` jobs get `completed_at`), and
promotion (which only removes jobs); consequently on a well-formed
queue every `Completed` job passes the promoter's timestamp guard, so
the guard never skips a job. -/
theorem queue_ops_preserve_invariant (q : List Download) (hist : List HistoryEntry)
    (t jid nid : Nat) (ok : Bool) (name remote : String) (hWF : WF q) :
    WF (enqueueJob q nid name remote) ∧
    WF ((markFirstQueued t q).2) ∧
    WF (updateStatusById t jid ok q) ∧
    WF ((move_completed_to_history q hist).1) ∧
    (∀ d ∈ q, d.status = DownloadStatus.Completed → promotable d = true) := by
  refine ⟨?_, ?_, ?_, ?_, ?_⟩
  · intro d hd
    rcases List.mem_append.mp hd with hd | hd
    · exact hWF d hd
    · rcases List.mem_singleton.mp hd with rfl
      exact ⟨(fun h => nomatch h), (fun h => nomatch h)⟩
  · intro d hd
    rcases markFirstQueued_mem_char t q d hd with h | ⟨x, _, rfl⟩
    · exact hWF d h
    · exact ⟨(fun _ => rfl), (fun h => nomatch h)⟩
  · intro d hd
    rcases updateStatusById_mem_char t jid ok q d hd with h | ⟨x, _, rfl⟩
    · exact hWF d h
    · constructor
      · intro h
        cases ok <;> simp [finishJob] at h
      · intro _
        cases ok <;> rfl
  · intro d hd
    have he : (move_completed_to_history q hist).1 =
        q.filter (fun x => !(promotable x)) := removeSweep_eq_filter q
    rw [he] at hd
    exact hWF d (List.mem_filter.mp hd).1
  · intro d hd hc
    have hts := (hWF d hd).2 (by rw [hc]; rfl)
    simp [promotable, hc, hts]

/-- Witness for C9 on the mixed-status sample queue. -/
theorem queue_ops_preserve_invariant_witness :
    WF (enqueueJob qMixed 9 "e" "h:e") ∧
    WF ((markFirstQueued 7 qMixed).2) ∧
    WF (updateStatusById 7 3 true qMixed) ∧
    WF ((move_completed_to_history qMixed []).1) ∧
    (∀ d ∈ qMixed, d.status = DownloadStatus.Completed → promotable d = true) :=
  queue_ops_preserve_invariant qMixed [] 7 3 9 true "e" "h:e" (by decide)

/-! ## The drain loop -/

theorem isTerminal_not_queued (s : DownloadStatus) (h : isTerminal s = true) :
    ¬(s = DownloadStatus.Queued) := by
  cases s <;> simp_all [isTerminal]

theorem isTerminal_not_downloading (s : DownloadStatus) (h : isTerminal s = true) :
    ¬(s = DownloadStatus.Downloading) := by
  cases s <;> simp_all [isTerminal]

theorem drain_keeps_settled (outcome : Nat → ProcOutcome) (dest : String) :
    ∀ (fuel clk : Nat) (q : List Download) (log : List (String × String)),
      (q.map (fun d => d.id)).Nodup →
      ∀ j ∈ q, isTerminal j.status = true →
      j ∈ (drainLoop outcome dest fuel clk q log).queue := by
  intro fuel
  induction fuel with
  | zero =>
    intro clk q log _ j hj _
    simpa [drainLoop] using hj
  | succ fuel ih =>
    intro clk q log hnd j hj ht
    rcases hmk : markFirstQueued clk q with ⟨fst, q'⟩
    cases fst with
    | none =>
      have hq' : (markFirstQueued clk q).2 = q :=
        (markFirstQueued_snd_of_none clk q (by rw [hmk])).1
      rw [hmk] at hq'
      have hq2 : q' = q := hq'
      simp only [drainLoop, hmk]
      exact hq2 ▸ hj
    | some d =>
      have hfst : (markFirstQueued clk q).1 = some d := by rw [hmk]
      have hd : d.status = DownloadStatus.Downloading := by
        obtain ⟨x, _, _, hde⟩ := markFirstQueued_fst_some clk q d hfst
        rw [hde]; rfl
      have hj' : j ∈ q' := by
        have := markFirstQueued_mem_not_queued clk q j hj (isTerminal_not_queued _ ht)
        rwa [hmk] at this
      have hdq' : d ∈ q' := by
        have := markFirstQueued_some_mem clk q d hfst
        rwa [hmk] at this
      have hids : q'.map (fun x => x.id) = q.map (fun x => x.id) := by
        have := markFirstQueued_map_id clk q
        rwa [hmk] at this
      have hnd' : (q'.map (fun x => x.id)).Nodup := by rw [hids]; exact hnd
      have hne : ¬(j.id = d.id) := by
        intro he
        have := nodup_id_inj q' hnd' j d hj' hdq' he
        rw [this] at ht
        exact isTerminal_not_downloading _ ht hd
      have hj'' : j ∈ updateStatusById (clk + 1) d.id (isSuccess (outcome d.id)) q' :=
        updateStatusById_mem_ne (clk + 1) d.id (isSuccess (outcome d.id)) q' j hj' hne
      have hnd'' :
          ((updateStatusById (clk + 1) d.id (isSuccess (outcome d.id)) q').map
            (fun x => x.id)).Nodup := by
        rw [updateStatusById_map_id]; exact hnd'
      simp only [drainLoop, hmk]
      exact ih (clk + 2) _ _ hnd'' j hj'' ht

theorem drain_settles (outcome : Nat → ProcOutcome) (dest : String) :
    ∀ (fuel clk : Nat) (q : List Download) (log : List (String × String)),
      (q.map (fun d => d.id)).Nodup →
      countQueued q ≤ fuel →
      ∀ j ∈ q, j.status = DownloadStatus.Queued →
      ∃ j' ∈ (drainLoop outcome dest fuel clk q log).queue,
        j'.id = j.id ∧
        j'.status = (if isSuccess (outcome j.id) then DownloadStatus.Completed
                     else DownloadStatus.Failed "rsync failed") ∧
        j'.completed_at.isSome = true := by
  intro fuel
  induction fuel with
  | zero =>
    intro clk q log _ hf j hj hq
    exact absurd (Nat.lt_of_lt_of_le (countQueued_pos q j hj hq) hf) (Nat.lt_irrefl 0)
  | succ fuel ih =>
    intro clk q log hnd hf j hj hq
    rcases hmk : markFirstQueued clk q with ⟨fst, q'⟩
    cases fst with
    | none =>
      exact absurd hq ((markFirstQueued_snd_of_none clk q (by rw [hmk])).2 j hj)
    | some d =>
      have hfst : (markFirstQueued clk q).1 = some d := by rw [hmk]
      have hdq' : d ∈ q' := by
        have := markFirstQueued_some_mem clk q d hfst
        rwa [hmk] at this
      have hids : q'.map (fun x => x.id) = q.map (fun x => x.id) := by
        have := markFirstQueued_map_id clk q
        rwa [hmk] at this
      have hnd' : (q'.map (fun x => x.id)).Nodup := by rw [hids]; exact hnd
      have hnd'' :
          ((updateStatusById (clk + 1) d.id (isSuccess (outcome d.id)) q').map
            (fun x => x.id)).Nodup := by
        rw [updateStatusById_map_id]; exact hnd'
      by_cases hid : j.id = d.id
      · have hfin : finishJob (clk + 1) (isSuccess (outcome d.id)) d ∈
            updateStatusById (clk + 1) d.id (isSuccess (outcome d.id)) q' :=
          updateStatusById_mem_eq (clk + 1) d.id (isSuccess (outcome d.id)) q' d hnd'
            hdq' rfl
        have hterm : isTerminal (finishJob (clk + 1) (isSuccess (outcome d.id)) d).status
            = true := by
          cases isSuccess (outcome d.id) <;> simp [finishJob, isTerminal]
        have hkeep := drain_keeps_settled outcome dest fuel (clk + 2) _
          (log ++ [(d.remote_path, dest)]) hnd'' _ hfin hterm
        refine ⟨finishJob (clk + 1) (isSuccess (outcome d.id)) d,
          by simp only [drainLoop, hmk]; exact hkeep, ?_, ?_, ?_⟩
        · rw [hid]
          cases isSuccess (outcome d.id) <;> rfl
        · rw [hid]
          cases isSuccess (outcome d.id) <;> rfl
        · cases isSuccess (outcome d.id) <;> rfl
      · have hj' : j ∈ q' := by
          have := markFirstQueued_mem_ne_id clk q d j hfst hj hid
          rwa [hmk] at this
        have hj'' : j ∈ updateStatusById (clk + 1) d.id (isSuccess (outcome d.id)) q' :=
          updateStatusById_mem_ne (clk + 1) d.id (isSuccess (outcome d.id)) q' j hj' hid
        have hcnt : countQueued (updateStatusById (clk + 1) d.id
            (isSuccess (outcome d.id)) q') ≤ fuel := by
          have h1 := updateStatusById_count_le (clk + 1) d.id (isSuccess (outcome d.id)) q'
          have h2 := markFirstQueued_count_some clk q d hfst
          rw [hmk] at h2
          exact Nat.le_trans h1 (by
            have : countQueued q' + 1 ≤ fuel + 1 := h2 ▸ hf
            exact Nat.le_of_succ_le_succ this)
        have := ih (clk + 2) _ (log ++ [(d.remote_path, dest)]) hnd'' hcnt j hj'' hq
        simpa only [drainLoop, hmk] using this

/-- C4: any job whose rsync process exits non-zero or fails to spawn
ends in `Failed "rsync failed"` with its end timestamp set, and the
drain loop is not stopped by the failure: every job that was `Queued`
— in particular any job after the failed one — is still dequeued and
driven to a terminal status. -/
theorem failed_job_does_not_stop_drain (outcome : Nat → ProcOutcome) (dest : String)
    (fuel clk : Nat) (q : List Download)
    (hnd : (q.map (fun d => d.id)).Nodup) (hf : countQueued q ≤ fuel) :
    ∀ j ∈ q, j.status = DownloadStatus.Queued →
      (isSuccess (outcome j.id) = false →
        ∃ j' ∈ (drainLoop outcome dest fuel clk q []).queue,
          j'.id = j.id ∧ j'.status = DownloadStatus.Failed "rsync failed" ∧
          j'.completed_at.isSome = true) ∧
      (∃ j' ∈ (drainLoop outcome dest fuel clk q []).queue,
        j'.id = j.id ∧ isTerminal j'.status = true) := by
  intro j hj hq
  obtain ⟨j', hmem, hid, hst, hca⟩ :=
    drain_settles outcome dest fuel clk q [] hnd hf j hj hq
  constructor
  · intro hfail
    refine ⟨j', hmem, hid, ?_, hca⟩
    rw [hst, hfail]
    rfl
  · refine ⟨j', hmem, hid, ?_⟩
    rw [hst]
    cases isSuccess (outcome j.id) <;> rfl

/-- Witness for C4: job 1's rsync fails to spawn, yet job 2 is still
processed to a terminal status afterwards. -/
theorem failed_job_does_not_stop_drain_witness :
    (∃ j' ∈ (drainLoop outSpawnFail1 "dst" 2 0 qAB []).queue,
      j'.id = 1 ∧ j'.status = DownloadStatus.Failed "rsync failed" ∧
      j'.completed_at.isSome = true) ∧
    (∃ j' ∈ (drainLoop outSpawnFail1 "dst" 2 0 qAB []).queue,
      j'.id = 2 ∧ isTerminal j'.status = true) := by
  have h := failed_job_does_not_stop_drain outSpawnFail1 "dst" 2 0 qAB
    (by decide) (by decide)
  exact ⟨(h (jQ 1 "a" "h:a") (by decide) rfl).1 (by decide),
         (h (jQ 2 "b" "h:b") (by decide) rfl).2⟩

/-- C10: a failed job's `Failed` reason is always the constant string
"rsync failed", whether the process failed to spawn or exited
non-zero — the reason never distinguishes the cause and never carries
process output (it is the one literal written at the single failure
write-back site). -/
theorem failure_reason_constant (outcome : Nat → ProcOutcome) (dest : String)
    (fuel clk : Nat) (q : List Download)
    (hnd : (q.map (fun d => d.id)).Nodup) (hf : countQueued q ≤ fuel) :
    ∀ j ∈ q, j.status = DownloadStatus.Queued →
      (outcome j.id = ProcOutcome.spawnFail ∨
       outcome j.id = ProcOutcome.exited false) →
      ∃ j' ∈ (drainLoop outcome dest fuel clk q []).queue,
        j'.id = j.id ∧ j'.status = DownloadStatus.Failed "rsync failed" := by
  intro j hj hq hcause
  obtain ⟨j', hmem, hid, hst, _⟩ :=
    drain_settles outcome dest fuel clk q [] hnd hf j hj hq
  have hfail : isSuccess (outcome j.id) = false := by
    rcases hcause with h | h <;> rw [h] <;> rfl
  refine ⟨j', hmem, hid, ?_⟩
  rw [hst, hfail]
  rfl

/-- Witness for C10: one spawn failure and one non-zero exit, the
same constant reason both times. -/
theorem failure_reason_constant_witness :
    (∃ j' ∈ (drainLoop outExitFail1 "dst" 2 0 qAB []).queue,
      j'.id = 1 ∧ j'.status = DownloadStatus.Failed "rsync failed") ∧
    (∃ j' ∈ (drainLoop outSpawnFail1 "dst" 2 5 qAB []).queue,
      j'.id = 1 ∧ j'.status = DownloadStatus.Failed "rsync failed") :=
  ⟨failure_reason_constant outExitFail1 "dst" 2 0 qAB (by decide) (by decide)
      (jQ 1 "a" "h:a") (by decide) rfl (Or.inr rfl),
   failure_reason_constant outSpawnFail1 "dst" 2 5 qAB (by decide) (by decide)
      (jQ 1 "a" "h:a") (by decide) rfl (Or.inl rfl)⟩

theorem drain_spawns_dest_aux (outcome : Nat → ProcOutcome) (dest : String) :
    ∀ (fuel clk : Nat) (q : List Download) (log : List (String × String)),
      (∀ r ∈ log, r.2 = dest) →
      ∀ r ∈ (drainLoop outcome dest fuel clk q log).spawns, r.2 = dest := by
  intro fuel
  induction fuel with
  | zero =>
    intro clk q log hlog r hr
    exact hlog r (by simpa [drainLoop] using hr)
  | succ fuel ih =>
    intro clk q log hlog r hr
    rcases hmk : markFirstQueued clk q with ⟨fst, q'⟩
    cases fst with
    | none =>
      simp only [drainLoop, hmk] at hr
      exact hlog r hr
    | some d =>
      simp only [drainLoop, hmk] at hr
      refine ih (clk + 2) _ (log ++ [(d.remote_path, dest)]) ?_ r hr
      intro x hx
      rcases List.mem_append.mp hx with hx | hx
      · exact hlog x hx
      · rcases List.mem_singleton.mp hx with rfl
        rfl

/-- C6 (amended): the drain loop clones `App.local_dest` once, when
the loop is activated (at the enqueue that spawned its thread); every
rsync process it spawns — for every job it processes — uses that
captured value.  A destination change therefore takes effect only for
drain loops activated after the change, not for jobs spawned later by
an already-running drain loop (see the counterexample
`stale_destination_counterexample` for the claim as stated). -/
theorem drain_spawns_use_activation_dest (outcome : Nat → ProcOutcome) (dest : String)
    (fuel clk : Nat) (q : List Download) :
    ∀ r ∈ (drainLoop outcome dest fuel clk q []).spawns, r.2 = dest :=
  drain_spawns_dest_aux outcome dest fuel clk q [] (by intro r hr; cases hr)

/-- Witness for the amended C6: a concrete drain over one job records
exactly the activation-time destination. -/
theorem drain_spawns_use_activation_dest_witness :
    ("h:a", "dst") ∈ (drainLoop outSpawnFail1 "dst" 1 0 [jQ 1 "a" "h:a"] []).spawns ∧
    ("h:a", "dst").2 = "dst" :=
  ⟨by decide,
   drain_spawns_use_activation_dest outSpawnFail1 "dst" 1 0 [jQ 1 "a" "h:a"]
     ("h:a", "dst") (by decide)⟩

/-! ## Interleavings of the whole system -/

/-- C1: the serialization invariant fails on the code.  Because
`App::queue_download` spawns a fresh drain-loop thread on every
enqueue (there is no "is a drain loop alive" flag, despite the
"Start download worker if needed" comment), a state with two jobs
simultaneously `Downloading` is reachable: enqueue a job, let the
first worker take it in flight, enqueue a second job, and let the
second spawned worker take that one while the first still runs. -/
theorem duplicate_workers_break_serialization :
    ∃ s : Sys, Steps (sysInit "dest") s ∧
      2 ≤ (s.queue.filter
        (fun d => decide (d.status = DownloadStatus.Downloading))).length := by
  refine ⟨_, Steps.tail (Steps.tail (Steps.tail (Steps.tail (Steps.refl _)
      (Step.enqueue _ "a" "h:a"))
      (Step.pickSpawn _ 0 { dest := "dest", inFlight := none }
        (markDownloading 0 (jQ 1 "a" "h:a"))
        [markDownloading 0 (jQ 1 "a" "h:a")] rfl rfl rfl))
      (Step.enqueue _ "b" "h:b"))
      (Step.pickSpawn _ 1 { dest := "dest", inFlight := none }
        (markDownloading 1 (jQ 2 "b" "h:b"))
        [markDownloading 0 (jQ 1 "a" "h:a"), markDownloading 1 (jQ 2 "b" "h:b")]
        rfl rfl rfl), ?_⟩
  decide

/-- C6, counterexample to the claim as stated: the drain loop does not
read `local_dest` at each spawn — it uses the clone captured at
activation.  Reachable run: enqueue job 1 (worker captures "A"), the
worker takes job 1 in flight, enqueue job 2, change the destination to
"B", job 1 finishes, and the same worker spawns job 2's rsync with the
stale "A" while `local_dest` is "B". -/
theorem stale_destination_counterexample :
    ∃ (s : Sys) (e : SpawnRec), Steps (sysInit "A") s ∧ e ∈ s.spawnLog ∧
      ¬(e.usedDest = e.destAtSpawn) := by
  refine ⟨_, { remote := "h:b", usedDest := "A", destAtSpawn := "B" },
    Steps.tail (Steps.tail (Steps.tail (Steps.tail (Steps.tail (Steps.tail (Steps.refl _)
      (Step.enqueue _ "a" "h:a"))
      (Step.pickSpawn _ 0 { dest := "A", inFlight := none }
        (markDownloading 0 (jQ 1 "a" "h:a"))
        [markDownloading 0 (jQ 1 "a" "h:a")] rfl rfl rfl))
      (Step.enqueue _ "b" "h:b"))
      (Step.setDest _ "B" (by decide)))
      (Step.finish _ 0
        { dest := "A", inFlight := some (markDownloading 0 (jQ 1 "a" "h:a")) }
        (markDownloading 0 (jQ 1 "a" "h:a")) true rfl rfl))
      (Step.pickSpawn _ 0 { dest := "A", inFlight := none }
        (markDownloading 2 (jQ 2 "b" "h:b"))
        [finishJob 1 true (markDownloading 0 (jQ 1 "a" "h:a")),
         markDownloading 2 (jQ 2 "b" "h:b")] rfl rfl rfl), ?_, ?_⟩
  · decide
  · decide

end Lakach
